import Mathlib

/-!
# The Fibonacci line server (`concurrency/concurrency.go`)

A shallow embedding of `fib` and `fibHandler` and of the three library calls
the handler makes on its data path (`bytes.Trim`, `strconv.Atoi`,
`strconv.FormatInt`), followed by the properties established about them.

Conventions.
* `int` and `int64` are 64-bit two's-complement integers, modelled as `Int`
  with an explicit wrap-around (`wrap64`) wherever the source adds.
* A byte is a natural number below 256; a Go string or byte slice is a list
  of bytes.
* A connection is modelled by the script of what its `Read` and `Write` calls
  return, one `Turn` per loop iteration; the handler's observable behaviour is
  the list of `Event`s it performs.
-/

namespace FibServer

/-! ## Machine integers -/

/-- The smallest `int64`. -/
def minInt64 : Int := -2 ^ 63

/-- The largest `int64`. -/
def maxInt64 : Int := 2 ^ 63 - 1

/-- Reduction of an integer to its two's-complement `int64` representative. -/
def wrap64 (x : Int) : Int := (x + 2 ^ 63) % 2 ^ 64 - 2 ^ 63

/-! ## `fib` -/

/-- Source `fib`:
`if n <= 2 { return 1 } else { return fib(n-1) + fib(n-2) }` on `int64`.
The addition wraps.  The two subtractions are only evaluated when `n > 2`,
where they cannot leave the `int64` range, so they are written unwrapped. -/
def fib (n : Int) : Int :=
  if n ≤ 2 then 1 else wrap64 (fib (n - 1) + fib (n - 2))
termination_by (n - 2).toNat
decreasing_by all_goals omega

/-- Instrumented `fib`: the number of recursive calls of `fib` made while
evaluating `fib n` (the outermost call is not counted). -/
def fibCalls (n : Int) : Nat :=
  if n ≤ 2 then 0 else (1 + fibCalls (n - 1)) + (1 + fibCalls (n - 2))
termination_by (n - 2).toNat
decreasing_by all_goals omega

/-- Instrumented `fib`: whether some `int64` addition performed while
evaluating `fib n` overflows, that is, has an exact sum different from the
wrapped sum the machine produces. -/
def fibOverflows (n : Int) : Bool :=
  if n ≤ 2 then false
  else fibOverflows (n - 1) || fibOverflows (n - 2) ||
    decide (wrap64 (fib (n - 1) + fib (n - 2)) ≠ fib (n - 1) + fib (n - 2))
termination_by (n - 2).toNat
decreasing_by all_goals omega

/-- The mathematical Fibonacci sequence as the specification words it:
`F(1) = F(2) = 1` and `F(k) = F(k-1) + F(k-2)`; index `0` is given the value
`0`, which the recurrence extended downwards forces. -/
def mathFib : Nat → Nat
  | 0 => 0
  | 1 => 1
  | 2 => 1
  | k + 3 => mathFib (k + 2) + mathFib (k + 1)

/-! ## Bytes and the library calls on the handler's data path -/

/-- The bytes of an ASCII text.  Throughout, a byte is the natural number
that is its value and a Go string or byte slice is a `List Nat`. -/
def bytesOf (s : String) : List Nat := s.toList.map Char.toNat

/-- Library `bytes.Trim(s, cutset)` for an ASCII cutset: `s` without its
leading and its trailing bytes that belong to `cutset`. -/
def Trim (s cutset : List Nat) : List Nat :=
  (s.rdropWhile (fun c => cutset.contains c)).dropWhile (fun c => cutset.contains c)

/-- The two errors of package `strconv`: `ErrSyntax` (here `invalid`) and
`ErrRange` (here `range`). -/
inductive NumError
  | invalid
  | range
  deriving DecidableEq, Repr

/-- The constant `maxUint64/10 + 1` of `strconv.ParseUint` in base 10: from
this value on, multiplying by 10 overflows `uint64`. -/
def cutoff64 : Nat := (2 ^ 64 - 1) / 10 + 1

/-- The digit loop of `strconv.ParseUint(s, 10, 64)`, with `n` the value
accumulated so far.  A byte outside `'0'..'9'` is a syntax error with value
`0`; an overflow of `uint64` is a range error with value `2^64 - 1`. -/
def parseUintFrom : List Nat → Nat → Nat × Option NumError
  | [], n => (n, none)
  | c :: cs, n =>
    if c < 48 ∨ 57 < c then (0, some NumError.invalid)
    else if cutoff64 ≤ n then (2 ^ 64 - 1, some NumError.range)
    else if 2 ^ 64 ≤ n * 10 + (c - 48) then (2 ^ 64 - 1, some NumError.range)
    else parseUintFrom cs (n * 10 + (c - 48))

/-- Whether a byte is an ASCII decimal digit, `'0'` (48) to `'9'` (57). -/
def isDigit (c : Nat) : Bool := decide (48 ≤ c) && decide (c ≤ 57)

/-- The number a string of decimal digits denotes when read after a number
`n`: each digit multiplies by ten and adds its value. -/
def decimalFrom (n : Nat) (ds : List Nat) : Nat :=
  ds.foldl (fun a c => a * 10 + (c - 48)) n

/-- The number a string of decimal digits denotes. -/
def decimalValue (ds : List Nat) : Nat := decimalFrom 0 ds

/-- Library `strconv.ParseUint(s, 10, 64)`: the empty string is a syntax
error. -/
def ParseUint (s : List Nat) : Nat × Option NumError :=
  if s = [] then (0, some NumError.invalid) else parseUintFrom s 0

/-- Library `strconv.ParseInt(s, 10, 0)` with a 64-bit `int`: an optional
sign `'+'` (43) or `'-'` (45), then `ParseUint`; a magnitude outside the
`int64` range is a range error whose value is the nearest bound. -/
def ParseInt (s : List Nat) : Int × Option NumError :=
  match s with
  | [] => (0, some NumError.invalid)
  | c :: rest =>
    let neg : Bool := decide (c = 45)
    let body := if c = 43 ∨ c = 45 then rest else s
    match ParseUint body with
    | (_, some NumError.invalid) => (0, some NumError.invalid)
    | (un, _) =>
      if neg = false ∧ 2 ^ 63 ≤ un then (2 ^ 63 - 1, some NumError.range)
      else if neg = true ∧ 2 ^ 63 < un then (-2 ^ 63, some NumError.range)
      else (if neg then -(un : Int) else (un : Int), none)

/-- Library `strconv.Atoi(s)`: `ParseInt(s, 10, 0)` converted to `int` (the
short-string fast path of the library returns the same results). -/
def Atoi (s : List Nat) : Int × Option NumError := ParseInt s

/-- The integer an optionally signed string of ASCII decimal digits denotes,
whatever its size: an optional `'+'` or `'-'`, then one digit or more;
`none` for any other string. -/
def signedDecimal (s : List Nat) : Option Int :=
  match s with
  | [] => none
  | c :: rest =>
    let ds := if c = 43 ∨ c = 45 then rest else s
    if ds ≠ [] ∧ ds.all isDigit = true then
      some (if c = 45 then -(decimalValue ds : Int) else (decimalValue ds : Int))
    else none

/-- The digit loop of `strconv.FormatInt` in base 10: the decimal digits of
`u`, most significant first, put in front of `acc`. -/
def formatBits (u : Nat) (acc : List Nat) : List Nat :=
  if 10 ≤ u then formatBits (u / 10) ((48 + u % 10) :: acc) else (48 + u) :: acc
termination_by u
decreasing_by omega

/-- Library `strconv.FormatInt(i, 10)`: a `'-'` for a negative `i`, then the
decimal digits of its magnitude. -/
def FormatInt (i : Int) : List Nat :=
  if i < 0 then 45 :: formatBits i.natAbs [] else formatBits i.natAbs []

/-! ## The connection handler -/

/-- Source `buf := make([]byte, 100)`. -/
def bufSize : Nat := 100

/-- What the connection returns during one iteration of the handler loop:
`data` is `buf[0:n]` after `n, err := conn.Read(buf)`, `readErr` is
`err != nil` for that read, and `writeErr` is `err != nil` for the
`conn.Write` of this iteration, should the handler reach it.  A read cannot
return more bytes than the buffer holds. -/
structure Turn where
  data : List Nat
  readErr : Bool
  writeErr : Bool
  fits : data.length ≤ bufSize

/-- An action of the handler that is visible outside it. -/
inductive Event
  /-- The call `conn.Read(buf)` returning `data` and, when `err`, an error. -/
  | read (data : List Nat) (err : Bool)
  /-- The call `conn.Close()`. -/
  | close
  /-- The call `log.Println("The request must be a number", err)`. -/
  | logParse (e : NumError)
  /-- The call `conn.Write(data)` returning, when `err`, an error. -/
  | write (data : List Nat) (err : Bool)
  /-- The call `fmt.Println("Error while writing to the socket")`. -/
  | printWriteErr
  /-- The call `log.Println("closed")` after the loop. -/
  | logClosed
  deriving DecidableEq, Repr

/-- Where the handler stands once a script is used up: blocked in
`conn.Read` inside the loop, or returned. -/
inductive Status
  | reading
  | returned
  deriving DecidableEq, Repr

/-- The bytes the handler hands to `strconv.Atoi` for the chunk `b`:
source `string(bytes.Trim(buf[0:n], "\n"))`. -/
def parserInput (b : List Nat) : List Nat := Trim b [10]

/-- One iteration of the `for` loop of source `fibHandler`, from
`conn.Read(buf)` to the end of the loop body, with `req` the value of the
variable `req` on entry.  The result is the events performed and the value
of `req` with which the loop goes on, or `none` when the loop was left (in
which case the events include those of the return path). -/
def iteration (t : Turn) (_req : Int) : List Event × Option Int :=
  if t.readErr = true ∨ t.data.length = 0 then
    ([Event.read t.data t.readErr, Event.close, Event.logClosed], none)
  else
    match Atoi (parserInput t.data) with
    | (r, some e) => ([Event.read t.data t.readErr, Event.logParse e], some r)
    | (r, none) =>
      ([Event.read t.data t.readErr,
        Event.write (FormatInt (fib r) ++ [10]) t.writeErr]
        ++ (if t.writeErr then [Event.printWriteErr] else []), some r)

/-- The loop of source `fibHandler` run against a script of turns, from a
given value of `req`.  When the script is used up while the loop is still
running, the handler is blocked in its next `conn.Read`. -/
def run : List Turn → Int → List Event × Status
  | [], _ => ([], Status.reading)
  | t :: ts, req =>
    match iteration t req with
    | (evs, none) => (evs, Status.returned)
    | (evs, some r) => (evs ++ (run ts r).1, (run ts r).2)

/-- Source `fibHandler(conn)`: `var req int` starts at zero. -/
def fibHandler (ts : List Turn) : List Event × Status := run ts 0

/-- The payloads of the `conn.Write` calls of a trace, in order. -/
def writes : List Event → List (List Nat)
  | [] => []
  | Event.write d _ :: es => d :: writes es
  | _ :: es => writes es

/-- The bytes the peer receives from a trace: the payloads of the writes
that returned no error, concatenated. -/
def output : List Event → List Nat
  | [] => []
  | Event.write d false :: es => d ++ output es
  | _ :: es => output es

/-- The number of `conn.Close()` calls of a trace. -/
def closes (es : List Event) : Nat := es.count Event.close

/-- A turn whose read succeeds with the bytes `d` and whose write, if any,
succeeds. -/
def okTurn (d : List Nat) (h : d.length ≤ bufSize) : Turn :=
  { data := d, readErr := false, writeErr := false, fits := h }

/-- A turn whose read succeeds with exactly one request line: an optionally
signed ASCII decimal integer `n` of the `int` range followed by one
newline. -/
def carriesLine (t : Turn) (n : Int) : Prop :=
  t.readErr = false ∧ t.data.getLast? = some 10 ∧
    signedDecimal t.data.dropLast = some n ∧ minInt64 ≤ n ∧ n ≤ maxInt64

/-- The response line of the request `n`: source
`strconv.FormatInt(fib(int64(req)), 10) + "\n"`. -/
def responseLine (n : Int) : List Nat := FormatInt (fib n) ++ [10]

/-- The parse step as the specification words it: the chunk with a single
trailing line terminator removed when it ends in one, the chunk itself
otherwise. -/
def stripOneTrailingNewline (b : List Nat) : List Nat :=
  if b.getLast? = some 10 then b.dropLast else b

/-! ## Properties of `fib` -/

theorem wrap64_of_inRange (x : Int) (h1 : -2 ^ 63 ≤ x) (h2 : x < 2 ^ 63) : wrap64 x = x := by
  unfold wrap64; omega

theorem wrap64_bounds (x : Int) : -2 ^ 63 ≤ wrap64 x ∧ wrap64 x < 2 ^ 63 := by
  unfold wrap64; omega

theorem wrap64_add_wrap64 (a b : Int) : wrap64 (wrap64 a + wrap64 b) = wrap64 (a + b) := by
  unfold wrap64; omega

theorem fib_of_le_two (n : Int) (h : n ≤ 2) : fib n = 1 := by
  rw [fib]; simp [h]

theorem fib_of_three_le (n : Int) (h : 3 ≤ n) :
    fib n = wrap64 (fib (n - 1) + fib (n - 2)) := by
  rw [fib]
  have h2 : ¬ n ≤ 2 := by omega
  simp [h2]

theorem fibCalls_of_le_two (n : Int) (h : n ≤ 2) : fibCalls n = 0 := by
  rw [fibCalls]; simp [h]

theorem fib_bounds (n : Int) : -2 ^ 63 ≤ fib n ∧ fib n < 2 ^ 63 := by
  by_cases h : n ≤ 2
  · rw [fib_of_le_two n h]; constructor <;> norm_num
  · rw [fib_of_three_le n (by omega)]; exact wrap64_bounds _

theorem mathFib_eq_fib (n : Nat) : mathFib n = Nat.fib n := by
  induction n using Nat.strong_induction_on with
  | _ n ih =>
    match n with
    | 0 => rfl
    | 1 => rfl
    | 2 => rfl
    | k + 3 =>
      rw [mathFib, ih (k + 2) (by omega), ih (k + 1) (by omega)]
      rw [Nat.fib_add_two (n := k + 1), Nat.add_comm]

theorem mathFib_mono {m n : Nat} (h : m ≤ n) : mathFib m ≤ mathFib n := by
  rw [mathFib_eq_fib, mathFib_eq_fib]; exact Nat.fib_mono h

theorem mathFib_92 : mathFib 92 = 7540113804746346429 := by
  rw [mathFib_eq_fib]; norm_num

theorem mathFib_93 : mathFib 93 = 12200160415121876738 := by
  rw [mathFib_eq_fib]; norm_num

/-- The value `fib` computes is the Fibonacci number reduced to `int64`. -/
theorem fib_eq_wrap64_mathFib (k : Nat) (hk : 1 ≤ k) :
    fib (k : Int) = wrap64 (mathFib k) := by
  induction k using Nat.strong_induction_on with
  | _ k ih =>
    match k, hk with
    | 1, _ => rw [fib_of_le_two _ (by norm_num)]; rfl
    | 2, _ => rw [fib_of_le_two _ (by norm_num)]; rfl
    | j + 3, _ =>
      rw [fib_of_three_le _ (by omega)]
      have e1 : ((j + 3 : Nat) : Int) - 1 = ((j + 2 : Nat) : Int) := by push_cast; ring
      have e2 : ((j + 3 : Nat) : Int) - 2 = ((j + 1 : Nat) : Int) := by push_cast; ring
      rw [e1, e2, ih (j + 2) (by omega) (by omega), ih (j + 1) (by omega) (by omega),
        wrap64_add_wrap64, mathFib]
      push_cast; rfl

theorem mathFib_pos {k : Nat} (hk : 1 ≤ k) : 1 ≤ mathFib k := by
  have h := mathFib_mono hk
  simpa [mathFib] using h

theorem mathFib_lt_of_le_92 {k : Nat} (hk : k ≤ 92) : (mathFib k : Int) < 2 ^ 63 := by
  have h := mathFib_mono hk
  rw [mathFib_92] at h
  have : (mathFib k : Int) ≤ 7540113804746346429 := by exact_mod_cast h
  omega

theorem mathFib_ge_of_93_le {k : Nat} (hk : 93 ≤ k) : (2 : Int) ^ 63 ≤ mathFib k := by
  have h := mathFib_mono hk
  rw [mathFib_93] at h
  have : (12200160415121876738 : Int) ≤ mathFib k := by exact_mod_cast h
  omega

/-- On indices `1..92` the wrapped value is the Fibonacci number itself. -/
theorem fib_eq_mathFib_of_le_92 (k : Nat) (h1 : 1 ≤ k) (h2 : k ≤ 92) :
    fib (k : Int) = mathFib k := by
  rw [fib_eq_wrap64_mathFib k h1]
  apply wrap64_of_inRange
  · have : (0 : Int) ≤ mathFib k := Int.natCast_nonneg _
    omega
  · exact mathFib_lt_of_le_92 h2

theorem fibOverflows_of_le_two (n : Int) (h : n ≤ 2) : fibOverflows n = false := by
  rw [fibOverflows]; simp [h]

theorem fibOverflows_of_three_le (n : Int) (h : 3 ≤ n) :
    fibOverflows n = (fibOverflows (n - 1) || fibOverflows (n - 2) ||
      decide (wrap64 (fib (n - 1) + fib (n - 2)) ≠ fib (n - 1) + fib (n - 2))) := by
  rw [fibOverflows]
  have h2 : ¬ n ≤ 2 := by omega
  simp [h2]

theorem fibOverflows_false_of_le_92 (k : Nat) (h2 : k ≤ 92) :
    fibOverflows (k : Int) = false := by
  induction k using Nat.strong_induction_on with
  | _ k ih =>
    match k, h2 with
    | 0, _ => exact fibOverflows_of_le_two _ (by norm_num)
    | 1, _ => exact fibOverflows_of_le_two _ (by norm_num)
    | 2, _ => exact fibOverflows_of_le_two _ (by norm_num)
    | j + 3, h2 =>
      rw [fibOverflows_of_three_le _ (by omega)]
      have e1 : ((j + 3 : Nat) : Int) - 1 = ((j + 2 : Nat) : Int) := by push_cast; ring
      have e2 : ((j + 3 : Nat) : Int) - 2 = ((j + 1 : Nat) : Int) := by push_cast; ring
      rw [e1, e2, ih (j + 2) (by omega) (by omega), ih (j + 1) (by omega) (by omega),
        fib_eq_mathFib_of_le_92 (j + 2) (by omega) (by omega),
        fib_eq_mathFib_of_le_92 (j + 1) (by omega) (by omega)]
      have hs : (mathFib (j + 2) : Int) + mathFib (j + 1) = mathFib (j + 3) := by
        rw [mathFib]; push_cast; rfl
      have hlt := mathFib_lt_of_le_92 h2
      have hnn : (0 : Int) ≤ mathFib (j + 3) := Int.natCast_nonneg _
      rw [hs, wrap64_of_inRange _ (by omega) hlt]
      simp

theorem fib_93 : fib 93 = -6246583658587674878 := by
  have h := fib_eq_wrap64_mathFib 93 (by norm_num)
  rw [mathFib_93] at h
  rw [show (93 : Int) = ((93 : Nat) : Int) by norm_num, h]
  unfold wrap64; norm_num

theorem fib_10 : fib 10 = 55 := by
  have h := fib_eq_mathFib_of_le_92 10 (by norm_num) (by norm_num)
  rw [show (10 : Int) = ((10 : Nat) : Int) by norm_num, h]
  rw [mathFib_eq_fib]; norm_num

theorem fib_5 : fib 5 = 5 := by
  have h := fib_eq_mathFib_of_le_92 5 (by norm_num) (by norm_num)
  rw [show (5 : Int) = ((5 : Nat) : Int) by norm_num, h]
  rw [mathFib_eq_fib]; norm_num

/-- C1. `fib` satisfies its defining equations at every integer `n` (so at
every `int64`): for `n ≤ 2`, zero and the negative numbers included, it is
`1` and no recursive call is made; for `n ≥ 3` it is the `int64` sum of
`fib (n-1)` and `fib (n-2)`, the two arguments being computed without
overflow when `n` is an `int64`.  In particular `fib 1 = 1`, `fib 2 = 1`
and `fib 10 = 55`. -/
theorem fib_defining_equations :
    (∀ n : Int, n ≤ 2 → fib n = 1 ∧ fibCalls n = 0) ∧
    (∀ n : Int, 3 ≤ n → fib n = wrap64 (fib (n - 1) + fib (n - 2))) ∧
    (∀ n : Int, 3 ≤ n → n ≤ maxInt64 → wrap64 (n - 1) = n - 1 ∧ wrap64 (n - 2) = n - 2) ∧
    fib 0 = 1 ∧ fib (-1) = 1 ∧ fib minInt64 = 1 ∧
    fib 1 = 1 ∧ fib 2 = 1 ∧ fib 10 = 55 := by
  refine ⟨fun n h => ⟨fib_of_le_two n h, fibCalls_of_le_two n h⟩, fib_of_three_le, ?_,
    fib_of_le_two _ (by norm_num), fib_of_le_two _ (by norm_num),
    fib_of_le_two _ (by norm_num [minInt64]), fib_of_le_two _ (by norm_num),
    fib_of_le_two _ (by norm_num), fib_10⟩
  intro n h3 hmax
  unfold maxInt64 at hmax
  constructor <;> apply wrap64_of_inRange <;> omega

theorem fib_of_nat_le_92 (n : Int) (h1 : 1 ≤ n) (h2 : n ≤ 92) : fib n = mathFib n.toNat := by
  have h := fib_eq_mathFib_of_le_92 n.toNat (by omega) (by omega)
  rwa [Int.toNat_of_nonneg (by omega)] at h

theorem fib_ne_mathFib_of_93_le (n : Int) (h : 93 ≤ n) : fib n ≠ mathFib n.toNat := by
  have hb := (fib_bounds n).2
  have hm := mathFib_ge_of_93_le (k := n.toNat) (by omega)
  omega

/-- C10. `fib` is exact where the result fits in `int64`: for `1 ≤ n ≤ 92`
no addition made while evaluating `fib n` overflows, `fib n` is the `n`-th
Fibonacci number and is at least `1`, and `fib` is non-decreasing on that
range.  `92` is the last such index: `F(92) < 2^63 ≤ F(93)`, the evaluation
of `fib 93` overflows, and `fib n` differs from `F(n)` for every `n ≥ 93`. -/
theorem fib_exact_up_to_92 :
    (∀ n : Int, 1 ≤ n → n ≤ 92 →
      fibOverflows n = false ∧ fib n = mathFib n.toNat ∧ 1 ≤ fib n) ∧
    (∀ m n : Int, 1 ≤ m → m ≤ n → n ≤ 92 → fib m ≤ fib n) ∧
    (mathFib 92 : Int) < 2 ^ 63 ∧ (2 : Int) ^ 63 ≤ mathFib 93 ∧
    fibOverflows 93 = true ∧ fib 93 ≠ mathFib 93 ∧
    (∀ n : Int, 93 ≤ n → fib n ≠ mathFib n.toNat) := by
  refine ⟨?_, ?_, mathFib_lt_of_le_92 (le_refl 92), mathFib_ge_of_93_le (le_refl 93), ?_, ?_,
    fib_ne_mathFib_of_93_le⟩
  · intro n h1 h2
    refine ⟨?_, fib_of_nat_le_92 n h1 h2, ?_⟩
    · have h := fibOverflows_false_of_le_92 n.toNat (by omega)
      rwa [Int.toNat_of_nonneg (by omega)] at h
    · rw [fib_of_nat_le_92 n h1 h2]
      have := mathFib_pos (k := n.toNat) (by omega)
      exact_mod_cast this
  · intro m n h1 hmn h2
    rw [fib_of_nat_le_92 m h1 (by omega), fib_of_nat_le_92 n (by omega) h2]
    have := mathFib_mono (m := m.toNat) (n := n.toNat) (by omega)
    exact_mod_cast this
  · rw [fibOverflows_of_three_le 93 (by norm_num)]
    have e92 : fib (93 - 1) = mathFib 92 := fib_of_nat_le_92 92 (by norm_num) (by norm_num)
    have e91 : fib (93 - 2) = mathFib 91 := fib_of_nat_le_92 91 (by norm_num) (by norm_num)
    have hs : (mathFib 92 : Int) + mathFib 91 = mathFib 93 := by
      rw [mathFib]; push_cast; rfl
    have hb := (wrap64_bounds (mathFib 93 : Int)).2
    have hm := mathFib_ge_of_93_le (le_refl 93)
    have hne : wrap64 (mathFib 93 : Int) ≠ mathFib 93 := by omega
    rw [e92, e91, hs]
    simp [hne]
  · exact fib_ne_mathFib_of_93_le 93 (by norm_num)

/-- C5, as amended.  For every request `n ≥ 1` the value the handler renders,
`fib n`, is the `n`-th Fibonacci number reduced to `int64` by two's-complement
wrap-around; it is the `n`-th Fibonacci number itself when `n ≤ 92`. -/
theorem fib_is_fibonacci_modulo_wrap (n : Int) (h : 1 ≤ n) :
    fib n = wrap64 (mathFib n.toNat) ∧ (n ≤ 92 → fib n = mathFib n.toNat) := by
  refine ⟨?_, fib_of_nat_le_92 n h⟩
  have h' := fib_eq_wrap64_mathFib n.toNat (by omega)
  rwa [Int.toNat_of_nonneg (by omega)] at h'

/-- Witness of `fib_is_fibonacci_modulo_wrap` at `n = 10`. -/
theorem fib_is_fibonacci_modulo_wrap_witness :
    (1 : Int) ≤ 10 ∧ fib 10 = wrap64 (mathFib (10 : Int).toNat) ∧
      ((10 : Int) ≤ 92 → fib 10 = mathFib (10 : Int).toNat) :=
  ⟨by decide, fib_is_fibonacci_modulo_wrap 10 (by decide)⟩

/-! ## Properties of the library calls -/

theorem decimalFrom_ge (ds : List Nat) (n : Nat) : n ≤ decimalFrom n ds := by
  induction ds generalizing n with
  | nil => exact le_refl _
  | cons c cs ih =>
    have := ih (n * 10 + (c - 48))
    simp only [decimalFrom, List.foldl_cons] at this ⊢
    omega

theorem decimalFrom_cons (c : Nat) (cs : List Nat) (n : Nat) :
    decimalFrom n (c :: cs) = decimalFrom (n * 10 + (c - 48)) cs := rfl

theorem decimalFrom_append (xs ys : List Nat) (n : Nat) :
    decimalFrom n (xs ++ ys) = decimalFrom (decimalFrom n xs) ys := by
  simp [decimalFrom, List.foldl_append]

/-- The digit loop accepts a string of digits whose value fits in `uint64`
and returns that value. -/
theorem parseUintFrom_of_digits (ds : List Nat) (n : Nat)
    (hd : ∀ c ∈ ds, isDigit c = true) (hv : decimalFrom n ds < 2 ^ 64) :
    parseUintFrom ds n = (decimalFrom n ds, none) := by
  induction ds generalizing n with
  | nil => rfl
  | cons c cs ih =>
    have hc := hd c (List.mem_cons_self _ _)
    simp only [isDigit, Bool.and_eq_true, decide_eq_true_eq] at hc
    rw [decimalFrom_cons] at hv ⊢
    have hge := decimalFrom_ge cs (n * 10 + (c - 48))
    have h1 : ¬ (c < 48 ∨ 57 < c) := by omega
    have h2 : ¬ cutoff64 ≤ n := by unfold cutoff64; omega
    have h3 : ¬ 2 ^ 64 ≤ n * 10 + (c - 48) := by omega
    rw [parseUintFrom, if_neg h1, if_neg h2, if_neg h3]
    exact ih _ (fun x hx => hd x (List.mem_cons_of_mem _ hx)) hv

/-- The digit loop succeeds only on a string of digits, with its value. -/
theorem digits_of_parseUintFrom (ds : List Nat) (n m : Nat)
    (h : parseUintFrom ds n = (m, none)) :
    (∀ c ∈ ds, isDigit c = true) ∧ m = decimalFrom n ds := by
  induction ds generalizing n with
  | nil =>
    simp only [parseUintFrom, Prod.mk.injEq, and_true] at h
    exact ⟨by simp, h.symm⟩
  | cons c cs ih =>
    rw [parseUintFrom] at h
    split_ifs at h with h1 h2 h3
    · simp at h
    · simp at h
    · simp at h
    · obtain ⟨hd, hm⟩ := ih _ h
      refine ⟨?_, hm⟩
      intro x hx
      rcases List.mem_cons.mp hx with rfl | hx
      · simp only [isDigit, Bool.and_eq_true, decide_eq_true_eq]; omega
      · exact hd x hx

theorem ParseUint_of_digits (ds : List Nat) (hne : ds ≠ [])
    (hd : ∀ c ∈ ds, isDigit c = true) (hv : decimalValue ds < 2 ^ 64) :
    ParseUint ds = (decimalValue ds, none) := by
  rw [ParseUint, if_neg hne]
  exact parseUintFrom_of_digits ds 0 hd hv

theorem digits_of_ParseUint (ds : List Nat) (m : Nat) (h : ParseUint ds = (m, none)) :
    ds ≠ [] ∧ (∀ c ∈ ds, isDigit c = true) ∧ m = decimalValue ds := by
  rw [ParseUint] at h
  split_ifs at h with h0
  · simp at h
  · exact ⟨h0, digits_of_parseUintFrom ds 0 m h⟩

/-- A range error of the digit loop comes with the value `2^64 - 1`. -/
theorem parseUintFrom_range (ds : List Nat) (n m : Nat)
    (h : parseUintFrom ds n = (m, some NumError.range)) : m = 2 ^ 64 - 1 := by
  induction ds generalizing n with
  | nil => simp [parseUintFrom] at h
  | cons c cs ih =>
    rw [parseUintFrom] at h
    split_ifs at h with h1 h2 h3
    · simp at h
    · simp only [Prod.mk.injEq, and_true] at h; exact h.symm
    · simp only [Prod.mk.injEq, and_true] at h; exact h.symm
    · exact ih _ h

theorem ParseUint_range (ds : List Nat) (m : Nat)
    (h : ParseUint ds = (m, some NumError.range)) : m = 2 ^ 64 - 1 := by
  rw [ParseUint] at h
  split_ifs at h with h0
  · simp at h
  · exact parseUintFrom_range ds 0 m h

/-- `ParseInt` on a string whose part after the sign parses as `u`. -/
theorem ParseInt_cons_of_ok (c : Nat) (rest body : List Nat) (u : Nat)
    (hb : (if c = 43 ∨ c = 45 then rest else c :: rest) = body)
    (h : ParseUint body = (u, none)) :
    ParseInt (c :: rest) =
      if c ≠ 45 ∧ 2 ^ 63 ≤ u then (2 ^ 63 - 1, some NumError.range)
      else if c = 45 ∧ 2 ^ 63 < u then (-2 ^ 63, some NumError.range)
      else (if c = 45 then -(u : Int) else (u : Int), none) := by
  subst hb
  simp only [ParseInt, h]
  by_cases hc : c = 45 <;> simp [hc]

theorem ParseInt_cons_of_range (c : Nat) (rest body : List Nat) (u : Nat)
    (hb : (if c = 43 ∨ c = 45 then rest else c :: rest) = body)
    (h : ParseUint body = (u, some NumError.range)) :
    (ParseInt (c :: rest)).2 = some NumError.range := by
  have hu := ParseUint_range _ _ h
  subst hb hu
  simp only [ParseInt, h]
  by_cases hc : c = 45 <;> simp [hc]

theorem ParseInt_cons_of_invalid (c : Nat) (rest body : List Nat) (u : Nat)
    (hb : (if c = 43 ∨ c = 45 then rest else c :: rest) = body)
    (h : ParseUint body = (u, some NumError.invalid)) :
    ParseInt (c :: rest) = (0, some NumError.invalid) := by
  subst hb
  simp only [ParseInt, h]

theorem signedDecimal_cons (c : Nat) (rest body : List Nat)
    (hb : (if c = 43 ∨ c = 45 then rest else c :: rest) = body) :
    signedDecimal (c :: rest) =
      if body ≠ [] ∧ body.all isDigit = true then
        some (if c = 45 then -(decimalValue body : Int) else (decimalValue body : Int))
      else none := by
  subst hb
  simp only [signedDecimal]

theorem all_isDigit_iff (ds : List Nat) :
    ds.all isDigit = true ↔ ∀ c ∈ ds, isDigit c = true := by
  simp [List.all_eq_true]

/-- `Atoi` succeeds with `n` exactly on the optionally signed decimal strings
that denote `n`, for `n` an `int64`. -/
theorem Atoi_eq_ok_iff (s : List Nat) (n : Int) :
    Atoi s = (n, none) ↔ signedDecimal s = some n ∧ minInt64 ≤ n ∧ n ≤ maxInt64 := by
  unfold Atoi minInt64 maxInt64
  cases s with
  | nil => simp [ParseInt, signedDecimal]
  | cons c rest =>
    obtain ⟨body, hb⟩ : ∃ body, (if c = 43 ∨ c = 45 then rest else c :: rest) = body := ⟨_, rfl⟩
    rw [signedDecimal_cons c rest body hb]
    constructor
    · intro h
      rcases hp : ParseUint body with ⟨u, e⟩
      rcases e with _ | e
      · obtain ⟨hne, hd, hu⟩ := digits_of_ParseUint _ _ hp
        rw [ParseInt_cons_of_ok c rest body u hb hp] at h
        rw [if_pos ⟨hne, (all_isDigit_iff _).mpr hd⟩, ← hu]
        split_ifs at h with h1 h2 h3
        · simp at h
        · simp at h
        · simp only [Prod.mk.injEq, and_true] at h
          simp only [not_and, not_lt] at h2
          have := h2 h3
          refine ⟨by rw [if_pos h3, h], ?_, ?_⟩ <;> omega
        · simp only [Prod.mk.injEq, and_true] at h
          simp only [not_and, not_le] at h1
          have := h1 h3
          refine ⟨by rw [if_neg h3, h], ?_, ?_⟩ <;> omega
      · cases e with
        | invalid => rw [ParseInt_cons_of_invalid c rest body u hb hp] at h; simp at h
        | range =>
          have := ParseInt_cons_of_range c rest body u hb hp
          rw [h] at this; simp at this
    · rintro ⟨hsd, hlo, hhi⟩
      by_cases hds : body ≠ [] ∧ body.all isDigit = true
      · rw [if_pos hds] at hsd
        obtain ⟨hne, hall⟩ := hds
        have hd := (all_isDigit_iff _).mp hall
        simp only [Option.some.injEq] at hsd
        by_cases hc : c = 45
        · rw [if_pos hc] at hsd
          rw [ParseInt_cons_of_ok c rest body _ hb
            (ParseUint_of_digits _ hne hd (by omega)),
            if_neg (by simp [hc]), if_neg (by simp only [not_and, not_lt]; omega),
            if_pos hc, hsd]
        · rw [if_neg hc] at hsd
          rw [ParseInt_cons_of_ok c rest body _ hb
            (ParseUint_of_digits _ hne hd (by omega)),
            if_neg (by simp only [not_and, not_le]; omega), if_neg (by simp [hc]),
            if_neg hc, hsd]
      · rw [if_neg hds] at hsd
        simp at hsd

/-! ### `Trim` -/

/-- The test `Trim` applies with the cutset `"\n"`. -/
theorem contains_newline (c : Nat) : ([10] : List Nat).contains c = true ↔ c = 10 := by
  simp

theorem eq_replicate_of_all_newline (l : List Nat)
    (h : ∀ x ∈ l, ([10] : List Nat).contains x = true) : l = List.replicate l.length 10 := by
  rw [List.eq_replicate_iff]
  exact ⟨rfl, fun x hx => (contains_newline x).mp (h x hx)⟩

/-- Trimming removes a block of newlines at each end and nothing else, and
what is left neither starts nor ends with a newline. -/
theorem Trim_newline_spec (b : List Nat) :
    ∃ k m, b = List.replicate k 10 ++ Trim b [10] ++ List.replicate m 10 ∧
      (Trim b [10]).head? ≠ some 10 ∧ (Trim b [10]).getLast? ≠ some 10 := by
  let p : Nat → Bool := fun c => ([10] : List Nat).contains c
  have hr : b = b.rdropWhile p ++ (b.reverse.takeWhile p).reverse := by
    have h := List.takeWhile_append_dropWhile p b.reverse
    have h2 := congrArg List.reverse h
    rw [List.reverse_append, List.reverse_reverse] at h2
    exact h2.symm
  have hl : b.rdropWhile p = (b.rdropWhile p).takeWhile p ++ Trim b [10] :=
    (List.takeWhile_append_dropWhile p _).symm
  have e1 := eq_replicate_of_all_newline ((b.rdropWhile p).takeWhile p)
    (fun x hx => List.mem_takeWhile_imp hx)
  have e2 := eq_replicate_of_all_newline (b.reverse.takeWhile p).reverse
    (fun x hx => List.mem_takeWhile_imp (List.mem_reverse.mp hx))
  refine ⟨((b.rdropWhile p).takeWhile p).length, (b.reverse.takeWhile p).reverse.length,
    ?_, ?_, ?_⟩
  · rw [← e1, ← e2, ← hl]; exact hr
  · have h := List.head?_dropWhile_not p (b.rdropWhile p)
    intro hc
    change (List.dropWhile p (b.rdropWhile p)).head? = some 10 at hc
    rw [hc] at h
    simp [p] at h
  · intro hc
    have hne : Trim b [10] ≠ [] := by
      intro h0; rw [h0] at hc; simp at hc
    have hsuf : Trim b [10] <:+ b.rdropWhile p := List.dropWhile_suffix p
    have hne2 : b.rdropWhile p ≠ [] := by
      intro h0; rw [h0] at hsuf; exact hne (List.suffix_nil.mp hsuf)
    have hlast := List.rdropWhile_last_not p b hne2
    have : (b.rdropWhile p).getLast? = some 10 := by
      obtain ⟨t, ht⟩ := hsuf
      rw [← ht, List.getLast?_append_of_ne_nil _ hne]; exact hc
    rw [List.getLast?_eq_getLast _ hne2] at this
    simp only [Option.some.injEq] at this
    rw [this] at hlast
    simp [p] at hlast

/-- A string that neither starts nor ends with a newline is left as it is,
with or without one newline after it. -/
theorem Trim_of_clean (s : List Nat) (h1 : s.head? ≠ some 10) (h2 : s.getLast? ≠ some 10) :
    Trim s [10] = s ∧ Trim (s ++ [10]) [10] = s := by
  have hr : s.rdropWhile (fun c => ([10] : List Nat).contains c) = s := by
    rw [List.rdropWhile_eq_self_iff]
    intro hne
    rw [List.getLast?_eq_getLast _ hne] at h2
    simpa using h2
  have hd : s.dropWhile (fun c => ([10] : List Nat).contains c) = s := by
    cases s with
    | nil => rfl
    | cons a t =>
      have : a ≠ 10 := by simpa using h1
      simp [List.dropWhile_cons, this]
  constructor
  · unfold Trim; rw [hr, hd]
  · unfold Trim
    rw [List.rdropWhile_concat_pos _ _ _ (by simp), hr, hd]

/-! ### `FormatInt` -/

theorem formatBits_of_lt (u : Nat) (acc : List Nat) (h : u < 10) :
    formatBits u acc = (48 + u) :: acc := by
  rw [formatBits, if_neg (by omega)]

theorem formatBits_of_ge (u : Nat) (acc : List Nat) (h : 10 ≤ u) :
    formatBits u acc = formatBits (u / 10) ((48 + u % 10) :: acc) := by
  rw [formatBits, if_pos h]

theorem formatBits_acc (u : Nat) (acc : List Nat) :
    formatBits u acc = formatBits u [] ++ acc := by
  induction u using Nat.strong_induction_on generalizing acc with
  | _ u ih =>
    by_cases h : 10 ≤ u
    · rw [formatBits_of_ge u acc h, formatBits_of_ge u [] h,
        ih (u / 10) (by omega) ((48 + u % 10) :: acc),
        ih (u / 10) (by omega) [48 + u % 10]]
      simp
    · rw [formatBits_of_lt u acc (by omega), formatBits_of_lt u [] (by omega)]
      simp

theorem formatBits_step (u : Nat) (h : 10 ≤ u) :
    formatBits u [] = formatBits (u / 10) [] ++ [48 + u % 10] := by
  rw [formatBits_of_ge u [] h, formatBits_acc]

/-- The digits `formatBits` produces: at least one, all of them decimal
digits, and denoting the number formatted. -/
theorem formatBits_spec (u : Nat) :
    formatBits u [] ≠ [] ∧ (∀ c ∈ formatBits u [], isDigit c = true) ∧
      decimalValue (formatBits u []) = u := by
  induction u using Nat.strong_induction_on with
  | _ u ih =>
    by_cases h : 10 ≤ u
    · obtain ⟨_, hd, hv⟩ := ih (u / 10) (by omega)
      rw [formatBits_step u h]
      refine ⟨by simp, ?_, ?_⟩
      · intro c hc
        rcases List.mem_append.mp hc with hc | hc
        · exact hd c hc
        · have : c = 48 + u % 10 := by simpa using hc
          subst this
          simp only [isDigit, Bool.and_eq_true, decide_eq_true_eq]
          omega
      · unfold decimalValue at hv ⊢
        rw [decimalFrom_append, hv]
        simp only [decimalFrom, List.foldl_cons, List.foldl_nil]
        omega
    · rw [formatBits_of_lt u [] (by omega)]
      refine ⟨by simp, ?_, ?_⟩
      · intro c hc
        have : c = 48 + u := by simpa using hc
        subst this
        simp only [isDigit, Bool.and_eq_true, decide_eq_true_eq]
        omega
      · simp only [decimalValue, decimalFrom, List.foldl_cons, List.foldl_nil]
        omega

theorem isDigit_ne_newline {c : Nat} (h : isDigit c = true) : c ≠ 10 ∧ c ≠ 43 ∧ c ≠ 45 := by
  simp only [isDigit, Bool.and_eq_true, decide_eq_true_eq] at h
  omega

/-- The rendering of an integer neither starts nor ends with a newline. -/
theorem FormatInt_clean (i : Int) :
    (FormatInt i).head? ≠ some 10 ∧ (FormatInt i).getLast? ≠ some 10 := by
  obtain ⟨hne, hd, _⟩ := formatBits_spec i.natAbs
  have hlast : (formatBits i.natAbs []).getLast? ≠ some 10 := by
    intro hc
    have hm := List.mem_of_getLast?_eq_some hc
    exact (isDigit_ne_newline (hd _ hm)).1 rfl
  have hhead : (formatBits i.natAbs []).head? ≠ some 10 := by
    intro hc
    have hm := List.mem_of_mem_head? (Option.mem_def.mpr hc)
    exact (isDigit_ne_newline (hd _ hm)).1 rfl
  unfold FormatInt
  split_ifs with h
  · refine ⟨by simp, ?_⟩
    obtain ⟨c, rest, hcr⟩ := List.exists_cons_of_ne_nil hne
    rw [hcr, List.getLast?_cons_cons, ← hcr]
    exact hlast
  · exact ⟨hhead, hlast⟩

/-- The rendering of an integer denotes it. -/
theorem signedDecimal_FormatInt (i : Int) : signedDecimal (FormatInt i) = some i := by
  obtain ⟨hne, hd, hv⟩ := formatBits_spec i.natAbs
  unfold FormatInt
  split_ifs with h
  · rw [signedDecimal_cons 45 _ (formatBits i.natAbs []) (by simp),
      if_pos ⟨hne, (all_isDigit_iff _).mpr hd⟩, hv]
    simp only [if_true, Option.some.injEq]
    omega
  · obtain ⟨c, rest, hcr⟩ := List.exists_cons_of_ne_nil hne
    have hc := isDigit_ne_newline (hd c (by rw [hcr]; exact List.mem_cons_self _ _))
    rw [hcr, signedDecimal_cons c rest (formatBits i.natAbs [])
      (by rw [hcr]; simp [hc.2.1, hc.2.2]),
      if_pos ⟨hne, (all_isDigit_iff _).mpr hd⟩, hv, if_neg hc.2.2]
    simp only [Option.some.injEq]
    omega

/-- What the handler parses from the canonical request line of an `int64`. -/
theorem Atoi_parserInput_FormatInt (n : Int) (h1 : minInt64 ≤ n) (h2 : n ≤ maxInt64) :
    Atoi (parserInput (FormatInt n ++ [10])) = (n, none) := by
  unfold parserInput
  rw [(Trim_of_clean _ (FormatInt_clean n).1 (FormatInt_clean n).2).2, Atoi_eq_ok_iff]
  exact ⟨signedDecimal_FormatInt n, h1, h2⟩

/-! ## Properties of the handler -/

theorem iteration_of_end (t : Turn) (req : Int) (h : t.readErr = true ∨ t.data = []) :
    iteration t req = ([Event.read t.data t.readErr, Event.close, Event.logClosed], none) := by
  have h' : t.readErr = true ∨ t.data.length = 0 := by
    rcases h with h | h
    · exact Or.inl h
    · exact Or.inr (by rw [h]; rfl)
  rw [iteration, if_pos h']

theorem iteration_of_parse_error (t : Turn) (req r : Int) (e : NumError)
    (hr : t.readErr = false) (hne : t.data ≠ [])
    (hp : Atoi (parserInput t.data) = (r, some e)) :
    iteration t req = ([Event.read t.data false, Event.logParse e], some r) := by
  have h' : ¬ (t.readErr = true ∨ t.data.length = 0) := by
    rw [hr]; simp [hne]
  rw [iteration, if_neg h', hp, hr]

theorem iteration_of_parse_ok (t : Turn) (req r : Int)
    (hr : t.readErr = false) (hne : t.data ≠ [])
    (hp : Atoi (parserInput t.data) = (r, none)) :
    iteration t req =
      ([Event.read t.data false, Event.write (FormatInt (fib r) ++ [10]) t.writeErr]
        ++ (if t.writeErr = true then [Event.printWriteErr] else []), some r) := by
  have h' : ¬ (t.readErr = true ∨ t.data.length = 0) := by
    rw [hr]; simp [hne]
  rw [iteration, if_neg h', hp, hr]

theorem run_cons_of_none (t : Turn) (ts : List Turn) (req : Int) (evs : List Event)
    (h : iteration t req = (evs, none)) : run (t :: ts) req = (evs, Status.returned) := by
  rw [run, h]

theorem run_cons_of_some (t : Turn) (ts : List Turn) (req r : Int) (evs : List Event)
    (h : iteration t req = (evs, some r)) :
    run (t :: ts) req = (evs ++ (run ts r).1, (run ts r).2) := by
  rw [run, h]

/-- The loop never reads the value `req` holds on entry. -/
theorem run_req_irrelevant (ts : List Turn) (r1 r2 : Int) : run ts r1 = run ts r2 := by
  cases ts with
  | nil => rfl
  | cons t ts => rfl

theorem writes_append (xs ys : List Event) : writes (xs ++ ys) = writes xs ++ writes ys := by
  induction xs with
  | nil => rfl
  | cons x xs ih => cases x <;> simp [writes, ih]

theorem output_append (xs ys : List Event) : output (xs ++ ys) = output xs ++ output ys := by
  induction xs with
  | nil => rfl
  | cons x xs ih =>
    cases x with
    | write d e => cases e <;> simp [output, ih]
    | _ => simp [output, ih]

theorem closes_append (xs ys : List Event) : closes (xs ++ ys) = closes xs + closes ys := by
  simp [closes, List.count_append]

/-- C2, as amended.  For every integer `n` of the `int` range whose decimal
rendering followed by one newline is the whole content of a successful read,
one iteration of the handler performs exactly one write, of the decimal
rendering of `fib n` followed by one newline, does not close the connection,
and goes on with the next read. -/
theorem iteration_answers_request (t : Turn) (req n : Int) (ts : List Turn)
    (h1 : minInt64 ≤ n) (h2 : n ≤ maxInt64)
    (hr : t.readErr = false) (hd : t.data = FormatInt n ++ [10]) :
    iteration t req =
      ([Event.read t.data false, Event.write (FormatInt (fib n) ++ [10]) t.writeErr]
        ++ (if t.writeErr = true then [Event.printWriteErr] else []), some n) ∧
    writes (iteration t req).1 = [FormatInt (fib n) ++ [10]] ∧
    closes (iteration t req).1 = 0 ∧
    run (t :: ts) req = ((iteration t req).1 ++ (run ts n).1, (run ts n).2) := by
  have hne : t.data ≠ [] := by rw [hd]; simp
  have hp : Atoi (parserInput t.data) = (n, none) := by
    rw [hd]; exact Atoi_parserInput_FormatInt n h1 h2
  have hit := iteration_of_parse_ok t req n hr hne hp
  refine ⟨hit, ?_, ?_, ?_⟩
  · rw [hit]; cases t.writeErr <;> simp [writes]
  · rw [hit]; cases t.writeErr <;> simp [closes]
  · rw [run_cons_of_some t ts req n _ hit, hit]

theorem FormatInt_10 : FormatInt 10 = bytesOf "10" := by
  simp [FormatInt, formatBits, bytesOf]

theorem FormatInt_55 : FormatInt 55 = bytesOf "55" := by
  simp [FormatInt, formatBits, bytesOf]

theorem FormatInt_5 : FormatInt 5 = bytesOf "5" := by
  simp [FormatInt, formatBits, bytesOf]

theorem FormatInt_1 : FormatInt 1 = bytesOf "1" := by
  simp [FormatInt, formatBits, bytesOf]

/-- Witness of `iteration_answers_request`: a read of `"10\n"` is answered
with exactly `"55\n"`. -/
theorem iteration_answers_request_witness :
    writes (iteration (okTurn (bytesOf "10\n") (by decide)) 0).1 = [bytesOf "55\n"] ∧
    output (fibHandler [okTurn (bytesOf "10\n") (by decide)]).1 = bytesOf "55\n" ∧
    (fibHandler [okTurn (bytesOf "10\n") (by decide)]).2 = Status.reading := by
  have h := iteration_answers_request (okTurn (bytesOf "10\n") (by decide)) 0 10 []
    (by norm_num [minInt64]) (by norm_num [maxInt64]) rfl
    (by rw [FormatInt_10]; decide)
  rw [fib_10, FormatInt_55] at h
  obtain ⟨hit, hw, -, hrun⟩ := h
  have hrun' : fibHandler [okTurn (bytesOf "10\n") (by decide)] =
      ((iteration (okTurn (bytesOf "10\n") (by decide)) 0).1, Status.reading) := by
    rw [fibHandler, hrun]; simp [run]
  have hout : output (iteration (okTurn (bytesOf "10\n") (by decide)) 0).1 =
      bytesOf "55\n" := by
    rw [hit]; decide
  refine ⟨hw, ?_, ?_⟩
  · rw [hrun']; exact hout
  · rw [hrun']

/-- C2, counterexample.  `2^63` is an integer whose decimal rendering followed
by one newline fits a read (20 bytes), yet the iteration that reads it
performs no write: `Atoi` reports a range error, which is logged. -/
theorem request_beyond_int64_unanswered :
    FormatInt 9223372036854775808 ++ [10] = bytesOf "9223372036854775808\n" ∧
    iteration (okTurn (bytesOf "9223372036854775808\n") (by decide)) 0 =
      ([Event.read (bytesOf "9223372036854775808\n") false, Event.logParse NumError.range],
        some 9223372036854775807) ∧
    writes (iteration (okTurn (bytesOf "9223372036854775808\n") (by decide)) 0).1 = [] := by
  refine ⟨?_, ?_, ?_⟩
  · simp [FormatInt, formatBits, bytesOf]
  · exact iteration_of_parse_error _ _ _ _ rfl (by decide) (by decide)
  · rw [iteration_of_parse_error _ 0 9223372036854775807 NumError.range rfl (by decide)
      (by decide)]
    rfl

/-- C3.  A successful non-empty read whose trimmed content `Atoi` rejects
makes the handler write nothing and close nothing; it logs the error and goes
on with the next read, and what it does from there on is what it would have
done had the malformed chunk never been read. -/
theorem malformed_request_dropped (t : Turn) (req r : Int) (e : NumError) (ts : List Turn)
    (hr : t.readErr = false) (hne : t.data ≠ [])
    (hp : Atoi (parserInput t.data) = (r, some e)) :
    iteration t req = ([Event.read t.data false, Event.logParse e], some r) ∧
    writes (iteration t req).1 = [] ∧ closes (iteration t req).1 = 0 ∧
    run (t :: ts) req =
      ([Event.read t.data false, Event.logParse e] ++ (run ts req).1, (run ts req).2) ∧
    writes (run (t :: ts) req).1 = writes (run ts req).1 ∧
    output (run (t :: ts) req).1 = output (run ts req).1 ∧
    closes (run (t :: ts) req).1 = closes (run ts req).1 := by
  have hit := iteration_of_parse_error t req r e hr hne hp
  have hrun : run (t :: ts) req =
      ([Event.read t.data false, Event.logParse e] ++ (run ts req).1, (run ts req).2) := by
    rw [run_cons_of_some t ts req r _ hit, run_req_irrelevant ts r req]
  refine ⟨hit, ?_, ?_, hrun, ?_, ?_, ?_⟩
  · rw [hit]; rfl
  · rw [hit]; rfl
  · rw [hrun, writes_append]; rfl
  · rw [hrun, output_append]; rfl
  · rw [hrun, closes_append]; simp [closes]

/-- What the handler does with a single well-formed turn `"5\n"`. -/
theorem run_five (req : Int) :
    run [okTurn (bytesOf "5\n") (by decide)] req =
      ([Event.read (bytesOf "5\n") false, Event.write (bytesOf "5\n") false],
        Status.reading) := by
  have hit := iteration_of_parse_ok (okTurn (bytesOf "5\n") (by decide)) req 5 rfl
    (by decide) (by decide)
  rw [run_cons_of_some _ _ req 5 _ hit, fib_5, FormatInt_5]
  rfl

/-- Witness of `malformed_request_dropped`: the reads `"abc\n"` then `"5\n"`
produce exactly the output `"5\n"`, and the connection stays open. -/
theorem malformed_request_dropped_witness :
    output (fibHandler [okTurn (bytesOf "abc\n") (by decide),
      okTurn (bytesOf "5\n") (by decide)]).1 = bytesOf "5\n" ∧
    closes (fibHandler [okTurn (bytesOf "abc\n") (by decide),
      okTurn (bytesOf "5\n") (by decide)]).1 = 0 := by
  have h := malformed_request_dropped (okTurn (bytesOf "abc\n") (by decide)) 0 0
    NumError.invalid [okTurn (bytesOf "5\n") (by decide)] rfl (by decide) (by decide)
  obtain ⟨-, -, -, -, -, ho, hc⟩ := h
  unfold fibHandler
  rw [ho, hc, run_five]
  exact ⟨by decide, by decide⟩

/-- C8.  A failed write does not end the handler.  In an iteration that
parses a request `r`, whether the write fails or succeeds the connection is
not closed and the handler goes on with the next read in the same way; the
failure only adds the line printed about it.  A failed read, by contrast,
closes the connection and leaves the loop. -/
theorem failed_write_keeps_handler_running (t : Turn) (req r : Int) (ts : List Turn)
    (hr : t.readErr = false) (hne : t.data ≠ [])
    (hp : Atoi (parserInput t.data) = (r, none)) :
    run ({ t with writeErr := true } :: ts) req =
      ([Event.read t.data false, Event.write (FormatInt (fib r) ++ [10]) true,
        Event.printWriteErr] ++ (run ts r).1, (run ts r).2) ∧
    run ({ t with writeErr := false } :: ts) req =
      ([Event.read t.data false, Event.write (FormatInt (fib r) ++ [10]) false]
        ++ (run ts r).1, (run ts r).2) ∧
    closes (iteration { t with writeErr := true } req).1 = 0 ∧
    (iteration { t with writeErr := true } req).2 = some r ∧
    run ({ t with readErr := true } :: ts) req =
      ([Event.read t.data true, Event.close, Event.logClosed], Status.returned) := by
  have hT := iteration_of_parse_ok { t with writeErr := true } req r hr hne hp
  have hF := iteration_of_parse_ok { t with writeErr := false } req r hr hne hp
  have hE := iteration_of_end { t with readErr := true } req (Or.inl rfl)
  refine ⟨?_, ?_, ?_, ?_, ?_⟩
  · rw [run_cons_of_some _ ts req r _ hT]; rfl
  · rw [run_cons_of_some _ ts req r _ hF]; rfl
  · rw [hT]; simp [closes]
  · rw [hT]
  · rw [run_cons_of_none _ ts req _ hE]

/-- Witness of `failed_write_keeps_handler_running`: the write answering
`"5\n"` fails, and the next request `"5\n"` is read and answered all the
same. -/
theorem failed_write_keeps_handler_running_witness :
    run [{ okTurn (bytesOf "5\n") (by decide) with writeErr := true },
      okTurn (bytesOf "5\n") (by decide)] 0 =
      ([Event.read (bytesOf "5\n") false, Event.write (bytesOf "5\n") true,
        Event.printWriteErr, Event.read (bytesOf "5\n") false,
        Event.write (bytesOf "5\n") false], Status.reading) := by
  have h := (failed_write_keeps_handler_running (okTurn (bytesOf "5\n") (by decide)) 0 5
    [okTurn (bytesOf "5\n") (by decide)] rfl (by decide) (by decide)).1
  rw [run_five, fib_5, FormatInt_5] at h
  exact h

/-- C5, counterexample.  The request `93` is at least `1`, and the value the
handler renders for it is negative, not the 93rd Fibonacci number. -/
theorem fib_93_is_not_fibonacci :
    (1 : Int) ≤ 93 ∧ fib 93 = -6246583658587674878 ∧ mathFib 93 = 12200160415121876738 ∧
    fib 93 ≠ (mathFib 93 : Int) ∧
    writes (fibHandler [okTurn (bytesOf "93\n") (by decide)]).1 =
      [bytesOf "-6246583658587674878\n"] := by
  refine ⟨by norm_num, fib_93, mathFib_93, ?_, ?_⟩
  · rw [fib_93, mathFib_93]; norm_num
  · have hit := iteration_of_parse_ok (okTurn (bytesOf "93\n") (by decide)) 0 93 rfl
      (by decide) (by decide)
    rw [fibHandler, run_cons_of_some _ _ 0 93 _ hit, fib_93]
    have hf : FormatInt (-6246583658587674878) = bytesOf "-6246583658587674878" := by
      simp [FormatInt, formatBits, bytesOf]
    rw [hf]
    decide

/-- C6, counterexample.  On the chunk `"\n5\n\n"` the handler hands `"5"` to
the integer parser: the leading newline and both trailing newlines are
removed, where removing a single trailing newline would leave `"\n5\n"`. -/
theorem parserInput_strips_more_than_one_newline :
    parserInput (bytesOf "\n5\n\n") = bytesOf "5" ∧
    stripOneTrailingNewline (bytesOf "\n5\n\n") = bytesOf "\n5\n" ∧
    parserInput (bytesOf "\n5\n\n") ≠ stripOneTrailingNewline (bytesOf "\n5\n\n") := by
  decide

/-- C6, as amended.  The string handed to the integer parser is the chunk
with all its leading and all its trailing newlines removed and no other byte
removed: the chunk is a block of newlines, the parser input, and a block of
newlines, and the parser input neither starts nor ends with a newline.  It is
the chunk with a single trailing newline removed (or the chunk itself, when
it does not end in a newline) whenever that string neither starts nor ends
with a newline. -/
theorem parserInput_trims_all_newlines (b : List Nat) :
    (∃ k m, b = List.replicate k 10 ++ parserInput b ++ List.replicate m 10 ∧
      (parserInput b).head? ≠ some 10 ∧ (parserInput b).getLast? ≠ some 10) ∧
    ((stripOneTrailingNewline b).head? ≠ some 10 →
      (stripOneTrailingNewline b).getLast? ≠ some 10 →
      parserInput b = stripOneTrailingNewline b) := by
  refine ⟨Trim_newline_spec b, ?_⟩
  unfold stripOneTrailingNewline parserInput
  split_ifs with h
  · intro h1 h2
    obtain ⟨ys, hys⟩ := List.getLast?_eq_some_iff.mp h
    have hd : b.dropLast = ys := by rw [hys]; simp
    rw [hd] at h1 h2
    rw [hd, hys]
    exact (Trim_of_clean ys h1 h2).2
  · intro h1 h2
    exact (Trim_of_clean b h1 h2).1

/-- C9, counterexample.  The chunk `"-5\n"` is turned into the request `-5`,
which is negative: the handler calls `fib (-5)` and writes `"1\n"`. -/
theorem negative_request_is_answered :
    Atoi (parserInput (bytesOf "-5\n")) = (-5, none) ∧ ¬ (0 : Int) ≤ -5 ∧
    iteration (okTurn (bytesOf "-5\n") (by decide)) 0 =
      ([Event.read (bytesOf "-5\n") false, Event.write (bytesOf "1\n") false], some (-5)) := by
  refine ⟨by decide, by decide, ?_⟩
  rw [iteration_of_parse_ok (okTurn (bytesOf "-5\n") (by decide)) 0 (-5) rfl (by decide)
    (by decide), fib_of_le_two (-5) (by decide), FormatInt_1]
  rfl

/-- C9, as amended.  A request is any integer of the `int` range, negative
ones included.  For a successful non-empty read, the handler calls `fib` and
writes a response exactly when the trimmed chunk is an optionally signed
ASCII decimal integer `n` with `-2^63 ≤ n ≤ 2^63 - 1`; the response is then
that of `fib n`, which for `n ≤ 2` is `"1\n"`.  Any other chunk is not turned
into a request. -/
theorem request_is_any_int64 (t : Turn) (req : Int)
    (hr : t.readErr = false) (hne : t.data ≠ []) :
    (writes (iteration t req).1 ≠ [] ↔
      ∃ n, signedDecimal (parserInput t.data) = some n ∧ minInt64 ≤ n ∧ n ≤ maxInt64) ∧
    (∀ n, signedDecimal (parserInput t.data) = some n → minInt64 ≤ n → n ≤ maxInt64 →
      writes (iteration t req).1 = [FormatInt (fib n) ++ [10]]) ∧
    (∀ n, signedDecimal (parserInput t.data) = some n → minInt64 ≤ n → n ≤ 2 →
      writes (iteration t req).1 = [bytesOf "1\n"]) := by
  have key : ∀ n, signedDecimal (parserInput t.data) = some n → minInt64 ≤ n → n ≤ maxInt64 →
      writes (iteration t req).1 = [FormatInt (fib n) ++ [10]] := by
    intro n hs h1 h2
    have hp := (Atoi_eq_ok_iff _ n).mpr ⟨hs, h1, h2⟩
    rw [iteration_of_parse_ok t req n hr hne hp]
    cases t.writeErr <;> simp [writes]
  refine ⟨⟨?_, ?_⟩, key, ?_⟩
  · intro hw
    rcases hp : Atoi (parserInput t.data) with ⟨r, e⟩
    rcases e with _ | e
    · exact ⟨r, (Atoi_eq_ok_iff _ r).mp hp⟩
    · rw [iteration_of_parse_error t req r e hr hne hp] at hw
      exact absurd rfl hw
  · rintro ⟨n, hs, h1, h2⟩
    rw [key n hs h1 h2]
    simp
  · intro n hs h1 h2
    rw [key n hs h1 (by unfold maxInt64; omega), fib_of_le_two n h2, FormatInt_1]
    rfl

/-- Witness of `request_is_any_int64` on the chunk `"-5\n"`. -/
theorem request_is_any_int64_witness :
    writes (iteration (okTurn (bytesOf "-5\n") (by decide)) 0).1 = [bytesOf "1\n"] :=
  (request_is_any_int64 (okTurn (bytesOf "-5\n") (by decide)) 0 rfl (by decide)).2.2 (-5)
    (by decide) (by norm_num [minInt64]) (by norm_num)

/-- A string that denotes an integer is not empty and neither starts nor
ends with a newline. -/
theorem signedDecimal_clean (s : List Nat) (n : Int) (h : signedDecimal s = some n) :
    s.head? ≠ some 10 ∧ s.getLast? ≠ some 10 := by
  cases s with
  | nil => simp [signedDecimal] at h
  | cons c rest =>
    obtain ⟨body, hb⟩ : ∃ body, (if c = 43 ∨ c = 45 then rest else c :: rest) = body := ⟨_, rfl⟩
    rw [signedDecimal_cons c rest body hb] at h
    by_cases hds : body ≠ [] ∧ body.all isDigit = true
    · obtain ⟨hne, hall⟩ := hds
      have hd := (all_isDigit_iff _).mp hall
      have hlastBody : body.getLast? ≠ some 10 := by
        intro hc
        exact (isDigit_ne_newline (hd _ (List.mem_of_getLast?_eq_some hc))).1 rfl
      by_cases hc : c = 43 ∨ c = 45
      · rw [if_pos hc] at hb
        subst hb
        constructor
        · rcases hc with hc | hc <;> simp [hc]
        · obtain ⟨a, l, hal⟩ := List.exists_cons_of_ne_nil hne
          rw [hal, List.getLast?_cons_cons, ← hal]
          exact hlastBody
      · rw [if_neg hc] at hb
        subst hb
        refine ⟨?_, hlastBody⟩
        have := (isDigit_ne_newline (hd c (List.mem_cons_self _ _))).1
        simpa using this
    · rw [if_neg hds] at h
      simp at h

/-- What the handler parses from a turn that carries one request line. -/
theorem Atoi_of_carriesLine (t : Turn) (n : Int) (h : carriesLine t n) :
    t.data ≠ [] ∧ Atoi (parserInput t.data) = (n, none) := by
  obtain ⟨_, hlast, hs, h1, h2⟩ := h
  obtain ⟨ys, hys⟩ := List.getLast?_eq_some_iff.mp hlast
  have hd : t.data.dropLast = ys := by rw [hys]; simp
  rw [hd] at hs
  have hc := signedDecimal_clean ys n hs
  refine ⟨by rw [hys]; simp, ?_⟩
  unfold parserInput
  rw [hys, (Trim_of_clean ys hc.1 hc.2).2, Atoi_eq_ok_iff]
  exact ⟨hs, h1, h2⟩

/-- C7, counterexample.  The two request lines `"1\n"` and `"2\n"` delivered
by one read are answered with no line at all, where one response line per
request line would be `"1\n"` twice. -/
theorem two_lines_in_one_read_unanswered :
    bytesOf "1\n" ++ bytesOf "2\n" = bytesOf "1\n2\n" ∧
    writes (fibHandler [okTurn (bytesOf "1\n2\n") (by decide)]).1 = [] ∧
    [responseLine 1, responseLine 2] = [bytesOf "1\n", bytesOf "1\n"] ∧
    writes (fibHandler [okTurn (bytesOf "1\n2\n") (by decide)]).1 ≠
      [responseLine 1, responseLine 2] := by
  have hw : writes (fibHandler [okTurn (bytesOf "1\n2\n") (by decide)]).1 = [] := by
    have hit := iteration_of_parse_error (okTurn (bytesOf "1\n2\n") (by decide)) 0 0
      NumError.invalid rfl (by decide) (by decide)
    rw [fibHandler, run_cons_of_some _ _ 0 0 _ hit]
    rfl
  have hl : [responseLine 1, responseLine 2] = [bytesOf "1\n", bytesOf "1\n"] := by
    unfold responseLine
    rw [fib_of_le_two 1 (by decide), fib_of_le_two 2 (by decide), FormatInt_1]
    decide
  refine ⟨by decide, hw, hl, ?_⟩
  rw [hw, hl]
  decide

/-- C7, as amended.  When every read delivers exactly one request line, an
optionally signed ASCII decimal integer of the `int` range followed by one
newline, the handler performs one write per request, in order, each of the
decimal rendering of `fib` of the request followed by one newline; it closes
nothing and is left waiting for the next read. -/
theorem one_response_per_request (ts : List Turn) (ns : List Int) (req : Int)
    (h : List.Forall₂ carriesLine ts ns) :
    writes (run ts req).1 = ns.map responseLine ∧
    closes (run ts req).1 = 0 ∧ (run ts req).2 = Status.reading := by
  induction h generalizing req with
  | nil => exact ⟨rfl, rfl, rfl⟩
  | @cons t n ts ns ht _ ih =>
    obtain ⟨hne, hp⟩ := Atoi_of_carriesLine t n ht
    have hit := iteration_of_parse_ok t req n ht.1 hne hp
    obtain ⟨ihw, ihc, ihs⟩ := ih n
    rw [run_cons_of_some t ts req n _ hit]
    refine ⟨?_, ?_, ihs⟩
    · rw [writes_append, ihw]
      cases t.writeErr <;> simp [writes, responseLine]
    · rw [closes_append, ihc]
      cases t.writeErr <;> simp [closes]

/-- Witness of `one_response_per_request`: the reads `"10\n"` then `"+5\n"`
are answered with `"55\n"` then `"5\n"`. -/
theorem one_response_per_request_witness :
    writes (fibHandler [okTurn (bytesOf "10\n") (by decide),
      okTurn (bytesOf "+5\n") (by decide)]).1 = [bytesOf "55\n", bytesOf "5\n"] := by
  have h := (one_response_per_request
    [okTurn (bytesOf "10\n") (by decide), okTurn (bytesOf "+5\n") (by decide)] [10, 5] 0
    (List.Forall₂.cons
      ⟨rfl, by decide, by decide, by norm_num [minInt64], by norm_num [maxInt64]⟩
      (List.Forall₂.cons
        ⟨rfl, by decide, by decide, by norm_num [minInt64], by norm_num [maxInt64]⟩
        List.Forall₂.nil))).1
  unfold fibHandler
  rw [h]
  simp only [List.map, responseLine, fib_10, fib_5, FormatInt_55, FormatInt_5]
  decide

/-- An iteration whose read neither fails nor is empty closes nothing and
stays in the loop. -/
theorem iteration_of_not_end (t : Turn) (req : Int)
    (hr : t.readErr = false) (hne : t.data ≠ []) :
    ∃ evs r, iteration t req = (evs, some r) ∧ closes evs = 0 := by
  rcases hp : Atoi (parserInput t.data) with ⟨r, e⟩
  rcases e with _ | e
  · refine ⟨_, r, iteration_of_parse_ok t req r hr hne hp, ?_⟩
    cases t.writeErr <;> simp [closes]
  · exact ⟨_, r, iteration_of_parse_error t req r e hr hne hp, by simp [closes]⟩

theorem end_or_not (t : Turn) :
    (t.readErr = true ∨ t.data = []) ∨ (t.readErr = false ∧ t.data ≠ []) := by
  cases t.readErr <;> by_cases h : t.data = [] <;> simp [h]

/-- The shape of every run: either the handler is still reading and has
closed nothing, or it has returned and its trace ends with the read that
failed or was empty, the one close, and the closing log line. -/
theorem run_shape (ts : List Turn) (req : Int) :
    ((run ts req).2 = Status.reading ∧ closes (run ts req).1 = 0 ∧
      ∀ t ∈ ts, t.readErr = false ∧ t.data ≠ []) ∨
    ((run ts req).2 = Status.returned ∧
      (∃ t ∈ ts, t.readErr = true ∨ t.data = []) ∧
      ∃ pre d e, (run ts req).1 = pre ++ [Event.read d e, Event.close, Event.logClosed] ∧
        (e = true ∨ d = []) ∧ closes pre = 0) := by
  induction ts generalizing req with
  | nil => exact Or.inl ⟨rfl, rfl, by simp⟩
  | cons t ts ih =>
    rcases end_or_not t with hend | ⟨hr, hne⟩
    · right
      rw [run_cons_of_none t ts req _ (iteration_of_end t req hend)]
      exact ⟨rfl, ⟨t, List.mem_cons_self _ _, hend⟩, [], t.data, t.readErr, rfl, hend, rfl⟩
    · obtain ⟨evs, r, hit, hc⟩ := iteration_of_not_end t req hr hne
      rw [run_cons_of_some t ts req r evs hit]
      rcases ih r with ⟨hs, hcl, hall⟩ | ⟨hs, ⟨u, hu, huend⟩, pre, d, e, hev, hde, hpre⟩
      · left
        refine ⟨hs, by rw [closes_append, hc, hcl], ?_⟩
        intro x hx
        rcases List.mem_cons.mp hx with rfl | hx
        · exact ⟨hr, hne⟩
        · exact hall x hx
      · right
        refine ⟨hs, ⟨u, List.mem_cons_of_mem _ hu, huend⟩, evs ++ pre, d, e, ?_, hde, ?_⟩
        · rw [hev, List.append_assoc]
        · rw [closes_append, hc, hpre]

/-- Once a read fails or is empty, what the connection would have returned
afterwards plays no part. -/
theorem run_append_end (ts : List Turn) (t : Turn) (rest : List Turn) (req : Int)
    (hend : t.readErr = true ∨ t.data = []) :
    run (ts ++ t :: rest) req = run (ts ++ [t]) req ∧
      (run (ts ++ [t]) req).2 = Status.returned := by
  induction ts generalizing req with
  | nil =>
    have hit := iteration_of_end t req hend
    simp only [List.nil_append]
    rw [run_cons_of_none t rest req _ hit, run_cons_of_none t [] req _ hit]
    exact ⟨rfl, rfl⟩
  | cons u ts ih =>
    simp only [List.cons_append]
    rcases end_or_not u with huend | ⟨hr, hne⟩
    · have hit := iteration_of_end u req huend
      rw [run_cons_of_none u _ req _ hit, run_cons_of_none u _ req _ hit]
      exact ⟨rfl, rfl⟩
    · obtain ⟨evs, r, hit, _⟩ := iteration_of_not_end u req hr hne
      rw [run_cons_of_some u _ req r evs hit, run_cons_of_some u _ req r evs hit]
      obtain ⟨h1, h2⟩ := ih r
      rw [h1]
      exact ⟨rfl, h2⟩

/-- C4.  The handler returns if and only if some read returns an error or
zero bytes.  When it has returned, its trace ends with that read, the one
`Close` of the whole trace and the closing log line, so nothing is written
for that read and no read or write follows it; what the connection would
have returned afterwards plays no part.  While the handler has not returned,
it has closed nothing. -/
theorem handler_returns_iff_read_ends (ts : List Turn) :
    ((fibHandler ts).2 = Status.returned ↔ ∃ t ∈ ts, t.readErr = true ∨ t.data = []) ∧
    ((fibHandler ts).2 = Status.returned →
      closes (fibHandler ts).1 = 1 ∧
      ∃ pre d e, (fibHandler ts).1 = pre ++ [Event.read d e, Event.close, Event.logClosed] ∧
        (e = true ∨ d = []) ∧ closes pre = 0) ∧
    ((fibHandler ts).2 = Status.reading → closes (fibHandler ts).1 = 0) ∧
    (∀ t rest, (t.readErr = true ∨ t.data = []) →
      fibHandler (ts ++ t :: rest) = fibHandler (ts ++ [t]) ∧
        (fibHandler (ts ++ [t])).2 = Status.returned) := by
  unfold fibHandler
  refine ⟨?_, ?_, ?_, fun t rest hend => run_append_end ts t rest 0 hend⟩
  · rcases run_shape ts 0 with ⟨hs, _, hall⟩ | ⟨hs, hex, _⟩
    · constructor
      · intro h; rw [hs] at h; cases h
      · rintro ⟨t, ht, hend⟩
        obtain ⟨hr, hne⟩ := hall t ht
        rcases hend with hend | hend
        · rw [hr] at hend; cases hend
        · exact absurd hend hne
    · exact ⟨fun _ => hex, fun _ => hs⟩
  · intro h
    rcases run_shape ts 0 with ⟨hs, _, _⟩ | ⟨_, _, pre, d, e, hev, hde, hpre⟩
    · rw [hs] at h; cases h
    · refine ⟨?_, pre, d, e, hev, hde, hpre⟩
      rw [hev, closes_append, hpre]
      simp [closes]
  · intro h
    rcases run_shape ts 0 with ⟨_, hcl, _⟩ | ⟨hs, _, _⟩
    · exact hcl
    · rw [hs] at h; cases h

end FibServer
